import Mathlib

/-!
Verification of the Fit function-adaptor library (conditional dispatch,
lazy invocation, decorate, identity) against its specification.

The conditional-dispatch embedding follows
src/include/boost/fit/conditional.hpp: a callable is modelled as a value
with an acceptance predicate (the shallow counterpart of the library's
compile-time is_callable trait) together with its result function, and
invocation of a composite is modelled as an Option-valued function: a
call the C++ type system would reject (no overload applicable, a
substitution failure in the SFINAE result) is modelled as none.
-/

namespace Fit

/-- A callable over argument lists of type alpha producing beta.
accepts models the is_callable trait of the source: whether the
callable can be applied to the given argument list; call gives the
result of the application when it is accepted. -/
structure Callable (α β : Type) where
  accepts : α → Bool
  call : α → β

/-- Invocation of a callable: some result when the callable accepts the
argument list, none when applying it would be a static (type) error. -/
def invoke {α β : Type} (f : Callable α β) (x : α) : Option β :=
  if f.accepts x then some (f.call x) else none

/-- Embedding of detail::conditional_kernel::select from
src/include/boost/fit/conditional.hpp lines 101-109: pick F1 when F1 is
callable with the given arguments, otherwise F2. -/
def select {α β : Type} (F1 F2 : Callable α β) (x : α) : Callable α β :=
  if F1.accepts x then F1 else F2

/-- Embedding of detail::conditional_kernel (conditional.hpp lines
82-120): its operator() dispatches to select, so both its acceptance
and its result are those of the selected callable. -/
def conditional_kernel {α β : Type} (F1 F2 : Callable α β) : Callable α β :=
  ⟨fun x => (select F1 F2 x).accepts x, fun x => (select F1 F2 x).call x⟩

/-- Embedding of conditional_adaptor (conditional.hpp lines 123-173):
the one-element adaptor is the callable itself, and the adaptor over
F :: Fs is conditional_kernel of F and the adaptor over Fs. -/
def conditional_adaptor {α β : Type} : Callable α β → List (Callable α β) → Callable α β
  | f, [] => f
  | f, g :: gs => conditional_kernel f (conditional_adaptor g gs)

/-- Concrete callable on Nat that accepts every argument and returns 1;
stands for an earlier entry of a dispatch list. -/
def cAccept1 : Callable Nat Nat :=
  ⟨fun _ => true, fun _ => 1⟩

/-- Concrete callable on Nat that accepts every argument and returns 2;
stands for a later entry that would be an exact match. -/
def cAccept2 : Callable Nat Nat :=
  ⟨fun _ => true, fun _ => 2⟩

/-- Concrete callable on Nat that accepts no argument at all. -/
def cReject : Callable Nat Nat :=
  ⟨fun _ => false, fun _ => 3⟩

/-- A second concrete callable on Nat that accepts no argument. -/
def cReject2 : Callable Nat Nat :=
  ⟨fun _ => false, fun _ => 4⟩

/-- Modelled from the spec: fit/lazy.hpp is not part of the sources at
hand (only its test suite is), so the bound-argument set of section 4.1
of the spec is modelled from the spec text. A slot is either a literal
value captured at binding time, a placeholder carrying a 1-based
ordinal into the final-call tuple, or a nested deferred invocation,
held unevaluated as the function from final-call tuple and state to an
optional result and updated state. -/
inductive Slot (V σ : Type) where
  | lit : V → Slot V σ
  | ph : Nat → Slot V σ
  | nested : (List V → σ → Option (V × σ)) → Slot V σ

/-- Modelled from the spec: a lazy invocation (spec section 4.3) pairs
an underlying callable with a bound-argument set. The underlying
callable takes the substituted argument list and the shared mutable
state and returns its result together with the updated state. -/
structure LazyInv (V σ : Type) where
  fn : List V → σ → V × σ
  bound : List (Slot V σ)

/-- Modelled from the spec: the binding operation of section 6,
(Callable, slot...) -> DeferredCallable. Binding only constructs the
pair; nothing is evaluated at binding time. -/
def lazy {V σ : Type} (fn : List V → σ → V × σ) (bound : List (Slot V σ)) : LazyInv V σ :=
  ⟨fn, bound⟩

/-- Modelled from the spec: substitution of one slot (section 4.1). A
literal yields its captured value; a placeholder with ordinal k yields
the k-th (1-based) element of the final-call tuple, and is a static
failure (none) when the ordinal is 0 or exceeds the tuple length; a
nested deferred invocation is evaluated now, against the same
final-call tuple, threading the state. -/
def substSlot {V σ : Type} : Slot V σ → List V → σ → Option (V × σ)
  | Slot.lit v, _, s => some (v, s)
  | Slot.ph k, args, s =>
      if k = 0 then none else (args[k - 1]?).map (fun v => (v, s))
  | Slot.nested g, args, s => g args s

/-- Modelled from the spec: substitution of a bound-argument set
(section 4.1), left-to-right, threading the state through the slots in
order; the whole substitution fails when any slot fails. -/
def substList {V σ : Type} : List (Slot V σ) → List V → σ → Option (List V × σ)
  | [], _, s => some ([], s)
  | t :: ts, args, s =>
      (substSlot t args s).bind (fun p =>
        (substList ts args p.2).map (fun q => (p.1 :: q.1, q.2)))

/-- Modelled from the spec: final invocation of a deferred-callable
(sections 4.3 and 6): substitute the bound-argument set against the
final-call tuple, then invoke the underlying callable on the
substituted arguments in the resulting state. -/
def invokeLazy {V σ : Type} (l : LazyInv V σ) (args : List V) (s : σ) : Option (V × σ) :=
  (substList l.bound args s).map (fun p => l.fn p.1 p.2)

/-- Underlying add callable used in the spec example add(a,b)=a+b,
over Int with trivial state. -/
def addF : List Int → Unit → Int × Unit :=
  fun vs _ => (vs.getD 0 0 + vs.getD 1 0, ())

/-- Underlying callable returning its first argument, the counterpart
of f_1 in src/test/lazy.cpp. -/
def firstF : List Int → Unit → Int × Unit :=
  fun vs _ => (vs.getD 0 0, ())

/-- Underlying callable computing a + 10 * b, the counterpart of f_2 in
src/test/lazy.cpp. -/
def pairF : List Int → Unit → Int × Unit :=
  fun vs _ => (vs.getD 0 0 + 10 * vs.getD 1 0, ())

/-- The nested deferred-callable of the lazy.cpp composition test:
pairF bound with placeholders 1 and 2. -/
def innerLazy : LazyInv Int Unit :=
  lazy pairF [Slot.ph 1, Slot.ph 2]

/-- Embedding of detail::decorator_invoke from src/fit/decorate.h lines
20-60: it stores the base callable F and the data T (the
compressed_pair base) together with the decorator D. -/
structure decorator_invoke (F T D : Type) where
  first : F
  second : T
  dec : D

/-- Embedding of decorator_invoke::operator() (decorate.h lines 51-59):
the decorator is called with the captured data first, the base callable
second, and the forwarded call arguments after. -/
def decorator_invoke_call {F T A R : Type}
    (di : decorator_invoke F T (T → F → A → R)) (xs : A) : R :=
  di.dec di.second di.first xs

/-- Embedding of detail::decoration from decorate.h lines 62-86: a
compressed_pair of the data T and the decorator D. -/
structure decoration (T D : Type) where
  first : T
  second : D

/-- Embedding of decoration::operator() (decorate.h lines 81-85):
supplying the base callable F builds the decorator_invoke stage from
the moved-in callable, the stored data and the stored decorator. -/
def decoration_call {T D F : Type} (dc : decoration T D) (f : F) : decorator_invoke F T D :=
  ⟨f, dc.first, dc.second⟩

/-- Embedding of decorate_adaptor from decorate.h lines 90-110: it
wraps the decorator D. -/
structure decorate_adaptor (D : Type) where
  base : D

/-- Embedding of decorate_adaptor::operator() (decorate.h lines
104-108): supplying the data T builds the decoration stage from the
moved-in data and the wrapped decorator. -/
def decorate_adaptor_call {D T : Type} (da : decorate_adaptor D) (x : T) : decoration T D :=
  ⟨x, da.base⟩

/-- Embedding of identity_detail::identity_base::operator() from
src/include/fit/identity.hpp lines 43-50: return what is given. -/
def identity {T : Type} (x : T) : T :=
  x

theorem invoke_kernel {α β : Type} (F1 F2 : Callable α β) (x : α) :
    invoke (conditional_kernel F1 F2) x =
      if F1.accepts x then invoke F1 x else invoke F2 x := by
  by_cases h : F1.accepts x <;> simp [invoke, conditional_kernel, select, h]

theorem adaptor_accepts {α β : Type} (f : Callable α β) (fs : List (Callable α β)) (x : α) :
    (conditional_adaptor f fs).accepts x = (f :: fs).any (fun g => g.accepts x) := by
  induction fs generalizing f with
  | nil => simp [conditional_adaptor]
  | cons g gs ih =>
    by_cases h : f.accepts x <;>
      simp [conditional_adaptor, conditional_kernel, select, h, ih]

theorem invoke_adaptor_find {α β : Type} (f : Callable α β)
    (fs : List (Callable α β)) (x : α) :
    invoke (conditional_adaptor f fs) x =
      ((f :: fs).find? (fun g => g.accepts x)).map (fun g => g.call x) := by
  induction fs generalizing f with
  | nil =>
    by_cases h : f.accepts x <;>
      simp [conditional_adaptor, invoke, h, List.find?]
  | cons g gs ih =>
    rw [show conditional_adaptor f (g :: gs)
          = conditional_kernel f (conditional_adaptor g gs) from rfl,
        invoke_kernel]
    by_cases h : f.accepts x
    · simp [h, invoke, List.find?]
    · rw [if_neg (by simp [h]), ih g]
      simp [List.find?, h]

theorem find_first {γ : Type} (p : γ → Bool) (l : List γ) (i : Fin l.length)
    (hp : p (l.get i) = true)
    (hmin : ∀ j : Fin l.length, j < i → p (l.get j) = false) :
    l.find? p = some (l.get i) := by
  induction l with
  | nil => exact absurd i.isLt (by simp)
  | cons a l ih =>
    rcases i with ⟨n, hn⟩
    cases n with
    | zero =>
      simp only [List.get] at hp
      simp [List.find?, hp]
    | succ m =>
      have ha : p a = false := by
        have := hmin ⟨0, by omega⟩ (by simp [Fin.lt_def])
        simpa [List.get] using this
      have hm : m < l.length := by
        simpa using hn
      have hp2 : p (l.get ⟨m, hm⟩) = true := by
        simpa [List.get] using hp
      have hmin2 : ∀ j : Fin l.length, j < ⟨m, hm⟩ → p (l.get j) = false := by
        intro j hj
        have hjm : j.1 < m := hj
        have hjl : j.1 + 1 < (a :: l).length := by
          simp
        have hj2 : (⟨j.1 + 1, hjl⟩ : Fin (a :: l).length) < ⟨m + 1, hn⟩ := by
          simp only [Fin.lt_def]
          omega
        have := hmin ⟨j.1 + 1, hjl⟩ hj2
        simpa [List.get] using this
      have hres := ih ⟨m, hm⟩ hp2 hmin2
      simp [List.find?, ha, hres, List.get]

theorem substList_ph {V σ : Type} [Inhabited V] (ks : List Nat) (args : List V) (s : σ)
    (h : ∀ k ∈ ks, 1 ≤ k ∧ k ≤ args.length) :
    substList (ks.map Slot.ph) args s =
      some (ks.map (fun k => args.getD (k - 1) default), s) := by
  induction ks with
  | nil => rfl
  | cons k ks ih =>
    have hk := h k (by simp)
    have hne : ¬ (k = 0) := by omega
    have hlt : k - 1 < args.length := by omega
    have hget : args[k - 1]? = some (args.getD (k - 1) default) := by
      rw [List.getD_eq_getElem?_getD, List.getElem?_eq_getElem hlt]
      rfl
    have hslot : substSlot (Slot.ph k) args s = some (args.getD (k - 1) default, s) := by
      show (if k = 0 then none else (args[k - 1]?).map (fun v => (v, s))) = _
      rw [if_neg hne, hget]
      rfl
    have hrest := ih (fun k2 hk2 => h k2 (by simp [hk2]))
    simp only [List.map_cons, substList, hslot, hrest, Option.some_bind, Option.map_some']


/-- C1: walking the dispatch list in declaration order, the composite
invokes the earliest callable that accepts the argument list and never
a later one, even when a later entry would be a better or exact
match. -/
theorem conditional_first_applicable_wins {α β : Type} (f : Callable α β)
    (fs : List (Callable α β)) (x : α) (i : Fin (f :: fs).length)
    (hacc : ((f :: fs).get i).accepts x = true)
    (hmin : ∀ j : Fin (f :: fs).length, j < i → ((f :: fs).get j).accepts x = false) :
    invoke (conditional_adaptor f fs) x = some (((f :: fs).get i).call x) := by
  rw [invoke_adaptor_find,
      find_first (fun g => g.accepts x) (f :: fs) i hacc hmin]
  rfl

theorem conditional_first_applicable_wins_witness :
    invoke (conditional_adaptor cAccept1 [cAccept2]) 0 = some 1 :=
  conditional_first_applicable_wins cAccept1 [cAccept2] 0
    ⟨0, by decide⟩ (by decide) (by decide)

/-- C4: over the dispatch list [A, B], when A does not accept the
argument list but B does, the composite invokes B and returns the
result of B. -/
theorem conditional_falls_through_to_second {α β : Type} (A B : Callable α β) (x : α)
    (hA : A.accepts x = false) (hB : B.accepts x = true) :
    invoke (conditional_adaptor A [B]) x = some (B.call x) := by
  rw [show conditional_adaptor A [B] = conditional_kernel A B from rfl,
      invoke_kernel, hA]
  simp [invoke, hB]

theorem conditional_falls_through_to_second_witness :
    invoke (conditional_adaptor cReject [cAccept2]) 0 = some 2 :=
  conditional_falls_through_to_second cReject cAccept2 0 (by decide) (by decide)

/-- C5: when no callable of the dispatch list accepts the argument
list, the composite is inapplicable: it does not accept the argument
list either, and invoking it is a static failure (none), not a runtime
result. -/
theorem conditional_no_match_inapplicable {α β : Type} (f : Callable α β)
    (fs : List (Callable α β)) (x : α)
    (h : ∀ g ∈ f :: fs, g.accepts x = false) :
    (conditional_adaptor f fs).accepts x = false ∧
      invoke (conditional_adaptor f fs) x = none := by
  have ha : (conditional_adaptor f fs).accepts x = false := by
    rw [adaptor_accepts]
    simp only [List.any_eq_false]
    intro g hg
    simp [h g hg]
  exact ⟨ha, by simp [invoke, ha]⟩

theorem conditional_no_match_inapplicable_witness :
    (conditional_adaptor cReject [cReject2]).accepts 0 = false ∧
      invoke (conditional_adaptor cReject [cReject2]) 0 = none :=
  conditional_no_match_inapplicable cReject [cReject2] 0 (by decide)

/-- C6: the dispatch composite built from the one-element list [F]
behaves identically to F itself: for every argument list, invoking the
composite gives exactly what invoking F directly gives (in particular
the same result on every argument list F accepts). -/
theorem conditional_singleton_roundtrip {α β : Type} (f : Callable α β) (x : α) :
    invoke (conditional_adaptor f []) x = invoke f x :=
  rfl

/-- C2: a placeholder slot with ordinal k draws the k-th (1-based)
element of the final-call tuple, whatever the order of the placeholder
ordinals among the bound slots: for every underlying callable and every
ordinal list ks within the range of the final-call tuple, the deferred
call applies the callable to the elements selected positionally by the
ordinals, in bound-slot order. -/
theorem placeholder_positional {V σ : Type} [Inhabited V]
    (fn : List V → σ → V × σ) (ks : List Nat) (args : List V) (s : σ)
    (h : ∀ k ∈ ks, 1 ≤ k ∧ k ≤ args.length) :
    invokeLazy (lazy fn (ks.map Slot.ph)) args s =
      some (fn (ks.map (fun k => args.getD (k - 1) default)) s) := by
  simp [invokeLazy, lazy, substList_ph ks args s h]

theorem placeholder_positional_witness :
    invokeLazy (lazy addF [Slot.ph 2, Slot.ph 1]) [(3 : Int), 4] () =
      some ((7 : Int), ()) := by
  have h := placeholder_positional addF [2, 1] [(3 : Int), 4] () (by decide)
  exact h.trans (by decide)

/-- C3: a bound slot that is itself a nested deferred invocation is not
run at binding time; invoking the outer deferred-callable evaluates the
nested one against the same final-call tuple and the incoming state,
and substitutes its result before running the outer underlying
callable. -/
theorem nested_lazy_same_tuple {V σ : Type} (f : List V → σ → V × σ)
    (inner : LazyInv V σ) (args : List V) (s : σ) (v : V) (s1 : σ)
    (h : invokeLazy inner args s = some (v, s1)) :
    invokeLazy (lazy f [Slot.nested (invokeLazy inner)]) args s =
      some (f [v] s1) := by
  have h2 : substSlot (Slot.nested (invokeLazy inner)) args s = some (v, s1) := h
  simp [invokeLazy, lazy, substList, h2]

theorem nested_lazy_same_tuple_witness :
    invokeLazy (lazy firstF [Slot.nested (invokeLazy innerLazy)]) [(1 : Int), 2] () =
      some ((21 : Int), ()) :=
  nested_lazy_same_tuple firstF innerLazy [(1 : Int), 2] () 21 () (by decide)

/-- C7: substitution of the bound-argument set proceeds left-to-right
and is never reordered: for every split of the bound slots, the whole
substitution first runs the left part in the incoming state, then runs
the right part in the state the left part produced, and concatenates
the substituted values in order. -/
theorem subst_left_to_right {V σ : Type} (xs ys : List (Slot V σ))
    (args : List V) (s : σ) :
    substList (xs ++ ys) args s =
      (substList xs args s).bind (fun p =>
        (substList ys args p.2).map (fun q => (p.1 ++ q.1, q.2))) := by
  induction xs generalizing s with
  | nil =>
    simp only [List.nil_append, substList, Option.some_bind]
    cases substList ys args s with
    | none => rfl
    | some q => rfl
  | cons t ts ih =>
    rw [List.cons_append]
    simp only [substList, ih]
    cases substSlot t args s with
    | none => rfl
    | some p =>
      simp only [Option.some_bind]
      cases substList ts args p.2 with
      | none => rfl
      | some q =>
        simp only [Option.some_bind, Option.map_some']
        cases substList ys args q.2 with
        | none => rfl
        | some r => rfl

/-- C8: a deferred-callable binding a nullary callable with an empty
bound-argument set, invoked with no final arguments, returns exactly
the underlying callable's result. -/
theorem lazy_nullary_identity {V σ : Type} (f : List V → σ → V × σ) (s : σ) :
    invokeLazy (lazy f []) [] s = some (f [] s) :=
  rfl

/-- C9: the decorated composite always hands the decorator the captured
data first, the base callable second and the final-call arguments after:
for every decorator d, data x, callable f and argument list xs, the
staged call decorate(d)(x)(f)(xs) equals the direct call d x f xs. -/
theorem decorate_staged_call {T F A R : Type} (d : T → F → A → R)
    (x : T) (f : F) (xs : A) :
    decorator_invoke_call
        (decoration_call (decorate_adaptor_call (decorate_adaptor.mk d) x) f) xs =
      d x f xs :=
  rfl

/-- C10: the identity function returns its argument itself, unchanged,
for every input value. -/
theorem identity_returns_argument {T : Type} (x : T) :
    identity x = x :=
  rfl

end Fit
